import Mathlib

/-!
Shallow embedding of the bit-addressable reader layer of `pkg/bitio/reader.go`:
the sequential `Reader` over a seekable byte source, the bounded
`SectionBitReader`, and the composing `MultiBitReader`.

Byte sources are modelled as `List Nat` of byte values; Go `int`/`int64`
arithmetic is modelled on `Int` (no claim exercises 64-bit overflow).
A read call returns the bit count, the bytes written into the caller's
buffer, and an optional error, mirroring Go's `(int, error)` plus the
mutation of `p`.
-/

namespace Bitio

/-- Errors surfaced by the readers: `ErrNegativeNBits`, `io.EOF`,
`ErrOffset`, and any other propagated underlying-source failure
(including the modelled outcome of a Go runtime panic, which no claim
exercises). -/
inductive BErr where
  | negativeNBits
  | eof
  | offset
  | underlying
deriving DecidableEq, Repr

/-- Result of a `ReadBitsAt`/`ReadBits` call: the returned bit count `n`,
the bytes written into the destination buffer `p` (its written prefix),
and the returned error. -/
structure ReadResult where
  n : Int
  out : List Nat
  err : Option BErr
deriving DecidableEq, Repr

/-- Seek origin, mirroring `io.SeekStart` / `io.SeekCurrent` / `io.SeekEnd`. -/
inductive Whence where
  | seekStart
  | seekCurrent
  | seekEnd
deriving DecidableEq, Repr

/-- Bit `i` (big-endian within each byte: bit 0 is the most significant bit
of byte 0) of the byte buffer `buf`; positions past the end read as 0,
matching a freshly zero-allocated scratch buffer. -/
def bufBit (buf : List Nat) (i : Nat) : Nat :=
  (buf.getD (i / 8) 0) / 2 ^ (7 - i % 8) % 2

/-- Modelled from the spec: the shared sub-byte extraction helper `Read64`
(its file is not under `src/`): the big-endian value of the `nBits` bits of
`buf` starting at bit position `firstBit`. -/
def Read64 (buf : List Nat) (firstBit nBits : Nat) : Nat :=
  (List.range nBits).foldl (fun acc j => acc * 2 + bufBit buf (firstBit + j)) 0

/-- Modelled from the spec: the shared ceil-bits-to-bytes helper
`BitsByteCount` (its file is not under `src/`): the number of bytes needed
to hold `nBits` bits. -/
def BitsByteCount (nBits : Nat) : Nat :=
  nBits / 8 + (if nBits % 8 = 0 then 0 else 1)

/-- Sequential bit reader over a seekable byte source (reader.go:9).
The underlying `io.ReadSeeker` is modelled as the byte list `data`; the
underlying source's own byte cursor is not tracked (every modelled
operation that touches it re-seeks absolutely first). -/
structure Reader where
  data : List Nat
  bitPos : Int
deriving DecidableEq, Repr

/-- Slow/fast-path output assembly shared by the full and truncated
branches of `Reader.ReadBitsAt` (reader.go:51-67): `buf` is the fetched
scratch buffer, `skip` the sub-byte bit offset, `nBits` the (possibly
truncated) bit count. -/
def assembleBits (buf : List Nat) (skip nBits : Nat) (err : Option BErr) : ReadResult :=
  if skip = 0 ∧ nBits % 8 = 0 then
    ⟨nBits, buf, err⟩
  else
    let nBytes := nBits / 8
    let restBits := nBits % 8
    let full := (List.range nBytes).map (fun i => Read64 buf (skip + i * 8) 8)
    let tail := if restBits = 0 then [] else
      [Read64 buf (skip + nBytes * 8) restBits * 2 ^ (8 - restBits)]
    ⟨nBits, full ++ tail, err⟩

/-- `Reader.ReadBitsAt` (reader.go:22-68). The scratch buffer is modelled
as freshly zero-filled beyond the bytes actually fetched. A negative
`bitOffset` is modelled as an underlying failure (in Go it is either a
seek error from the byte source or a runtime panic in `Read64`; no claim
exercises it). -/
def Reader.readBitsAt (data : List Nat) (nBits bitOffset : Int) : ReadResult :=
  if nBits < 0 then ⟨0, [], some .negativeNBits⟩
  else if bitOffset < 0 then ⟨0, [], some .underlying⟩
  else
    let off := bitOffset.toNat
    let readBytePos := off / 8
    let readSkipBits := off % 8
    let wantReadBytes := BitsByteCount (readSkipBits + nBits.toNat)
    let avail := data.length - readBytePos
    let readBytes := min wantReadBytes avail
    let buf := (data.drop readBytePos).take readBytes
    if readBytes < wantReadBytes then
      if readBytes = 0 then ⟨0, [], some .eof⟩
      else assembleBits buf readSkipBits (readBytes * 8) (some .eof)
    else assembleBits buf readSkipBits nBits.toNat none

/-- `Reader.ReadBits` (reader.go:70-74): read at the cursor, advance by the
bits actually read. -/
def Reader.readBits (r : Reader) (nBits : Int) : ReadResult × Reader :=
  let res := Reader.readBitsAt r.data nBits r.bitPos
  (res, { r with bitPos := r.bitPos + res.n })

/-- `Reader.SeekBits` (reader.go:76-85): byte-seek the source by
`bitOff/8` (Go truncated division), then recompute the bit cursor as
`seekBytesPos*8 + bitOff%8`. The byte source rejects negative positions.
`seekCurrent` would need the underlying source's own byte cursor, which
this embedding does not track (no claim exercises relative seeks on the
sequential reader); it is modelled as an underlying failure. -/
def Reader.seekBits (r : Reader) (bitOff : Int) (w : Whence) : (Int × Option BErr) × Reader :=
  let target : Option Int := match w with
    | .seekStart => some (bitOff.tdiv 8)
    | .seekCurrent => none
    | .seekEnd => some ((r.data.length : Int) + bitOff.tdiv 8)
  match target with
  | none => ((0, some .underlying), r)
  | some t =>
    if t < 0 then ((0, some .underlying), r)
    else
      let seekBitPos := t * 8 + bitOff.tmod 8
      ((seekBitPos, none), { r with bitPos := seekBitPos })

/-- `SectionBitReader` (reader.go:108-113): a window over a parent
`BitReaderAt`; the parent interface value is modelled as the pure
read-at function `parentReadAt nBits bitOff`. -/
structure SectionBitReader where
  parentReadAt : Int → Int → ReadResult
  bitBase : Int
  bitOff : Int
  bitLimit : Int

/-- `NewSectionBitReader` (reader.go:115-122). -/
def NewSectionBitReader (readAt : Int → Int → ReadResult) (bitOff nBits : Int) :
    SectionBitReader :=
  ⟨readAt, bitOff, bitOff, bitOff + nBits⟩

/-- `SectionBitReader.ReadBitsAt` (reader.go:124-135). -/
def SectionBitReader.readBitsAt (r : SectionBitReader) (nBits bitOff : Int) : ReadResult :=
  if bitOff < 0 ∨ bitOff ≥ r.bitLimit - r.bitBase then ⟨0, [], some .eof⟩
  else
    let bitOff := bitOff + r.bitBase
    let maxBits := r.bitLimit - bitOff
    if nBits > maxBits then r.parentReadAt maxBits bitOff
    else r.parentReadAt nBits bitOff

/-- `SectionBitReader.ReadBits` (reader.go:137-141). -/
def SectionBitReader.readBits (r : SectionBitReader) (nBits : Int) :
    ReadResult × SectionBitReader :=
  let res := r.readBitsAt nBits (r.bitOff - r.bitBase)
  (res, { r with bitOff := r.bitOff + res.n })

/-- `SectionBitReader.SeekBits` (reader.go:143-159). -/
def SectionBitReader.seekBits (r : SectionBitReader) (bitOff : Int) (w : Whence) :
    (Int × Option BErr) × SectionBitReader :=
  let b : Int := match w with
    | .seekStart => bitOff + r.bitBase
    | .seekCurrent => bitOff + r.bitOff
    | .seekEnd => bitOff + r.bitLimit
  if b < r.bitBase then ((0, some .offset), r)
  else ((b - r.bitBase, none), { r with bitOff := b })

/-- The whence translation of `SectionBitReader.SeekBits`
(reader.go:144-153): the absolute target position in the parent's
coordinate space. -/
def sectionSeekTarget (r : SectionBitReader) (bitOff : Int) : Whence → Int
  | .seekStart => bitOff + r.bitBase
  | .seekCurrent => bitOff + r.bitOff
  | .seekEnd => bitOff + r.bitLimit

/-- One element of `MultiBitReader.readers`: a `BitReadAtSeeker`
interface value, modelled by its read-at function together with its end
position. `endPos` is modelled from the spec: `EndPos` (not under `src/`)
computes each segment's own end position, i.e. its declared bit length. -/
structure ChildReader where
  endPos : Int
  readAt : Int → Int → ReadResult

/-- `MultiBitReader` (reader.go:173-177). -/
structure MultiBitReader where
  pos : Int
  readers : List ChildReader
  readerEnds : List Int

/-- The running prefix sums `esSum` stored into `readerEnds`
(reader.go:180-189). -/
def prefixEnds : List ChildReader → Int → List Int
  | [], _ => []
  | c :: cs, acc => (acc + c.endPos) :: prefixEnds cs (acc + c.endPos)

/-- `NewMultiBitReader` (reader.go:179-191). `EndPos` never fails in this
model (each child carries its end position). -/
def NewMultiBitReader (rs : List ChildReader) : MultiBitReader :=
  ⟨0, rs, prefixEnds rs 0⟩

/-- The total logical length: `m.readerEnds[len(m.readers)-1]` when there
are readers, otherwise 0 (reader.go:194-197). -/
def MultiBitReader.totalEnd (m : MultiBitReader) : Int :=
  match m.readerEnds.getLast? with
  | some e => e
  | none => 0

/-- The segment-locating loop of `MultiBitReader.ReadBitsAt`
(reader.go:202-210): scan the `(reader, cumulative end)` pairs, return the
first reader whose cumulative end strictly exceeds `bitOff` together with
the previous cumulative end (`prevAtEnd`); `d` is the loop's initial
`readerAt = m.readers[0]`. -/
def findSeg (d : ChildReader) : List (ChildReader × Int) → Int → Int → ChildReader × Int
  | [], _, prev => (d, prev)
  | (c, e) :: rest, bitOff, prev =>
    if bitOff < e then (c, prev) else findSeg d rest bitOff e

/-- `MultiBitReader.ReadBitsAt` (reader.go:193-221). With zero readers and
`bitOff` below 0 the Go code panics indexing `m.readers[0]`; modelled as an
underlying failure (no claim exercises it). The end-of-stream suppression
at reader.go:214-218 compares against the OUTER `end` (the total length):
the loop variable `end` shadows it only inside the loop. -/
def MultiBitReader.readBitsAt (m : MultiBitReader) (nBits bitOff : Int) : ReadResult :=
  let e := m.totalEnd
  if e ≤ bitOff then ⟨0, [], some .eof⟩
  else
    match m.readers with
    | [] => ⟨0, [], some .underlying⟩
    | r0 :: _ =>
      let sp := findSeg r0 (m.readers.zip m.readerEnds) bitOff 0
      let res := sp.1.readAt nBits (bitOff - sp.2)
      if res.err = some .eof ∧ bitOff + res.n < e then ⟨res.n, res.out, none⟩
      else res

/-- `MultiBitReader.ReadBits` (reader.go:223-227). -/
def MultiBitReader.readBits (m : MultiBitReader) (nBits : Int) :
    ReadResult × MultiBitReader :=
  let res := m.readBitsAt nBits m.pos
  (res, { m with pos := m.pos + res.n })

/-- `MultiBitReader.SeekBits` (reader.go:229-253). -/
def MultiBitReader.seekBits (m : MultiBitReader) (bitOff : Int) (w : Whence) :
    (Int × Option BErr) × MultiBitReader :=
  let e := m.totalEnd
  let p : Int := match w with
    | .seekStart => bitOff
    | .seekCurrent => m.pos + bitOff
    | .seekEnd => e + bitOff
  if p < 0 ∨ p > e then ((0, some .offset), m)
  else ((p, none), { m with pos := p })

/-! ### Concrete instances used by scenarios, counterexamples and witnesses -/

/-- Parent read-at over the three-byte source `0xAB 0xCD 0xEF`. -/
def c4f : Int → Int → ReadResult := fun n o => Reader.readBitsAt [0xAB, 0xCD, 0xEF] n o

/-- Section over window `[10, 20)` bits of `c4f`'s 24-bit parent. -/
def sectC4 : SectionBitReader := NewSectionBitReader c4f 10 10

/-- Parent read-at over the single byte `0xAB`. -/
def c7f : Int → Int → ReadResult := fun n o => Reader.readBitsAt [0xAB] n o

/-- Section over the full 8 bits of `c7f`'s parent. -/
def sectC7 : SectionBitReader := NewSectionBitReader c7f 0 8

/-- Segment: a plain sequential reader over the byte `0xAB` (8 bits). -/
def c3c1 : ChildReader := ⟨8, fun n o => Reader.readBitsAt [0xAB] n o⟩

/-- Segment: a plain sequential reader over the byte `0xCD` (8 bits). -/
def c3c2 : ChildReader := ⟨8, fun n o => Reader.readBitsAt [0xCD] n o⟩

/-- 8-bit section segment over the byte `0xAA`. -/
def c5s1 : SectionBitReader := NewSectionBitReader (fun n o => Reader.readBitsAt [0xAA] n o) 0 8

/-- 16-bit section segment over the bytes `0xBB 0xCC`. -/
def c5s2 : SectionBitReader :=
  NewSectionBitReader (fun n o => Reader.readBitsAt [0xBB, 0xCC] n o) 0 16

/-- 8-bit section segment over the byte `0xDD`. -/
def c5s3 : SectionBitReader := NewSectionBitReader (fun n o => Reader.readBitsAt [0xDD] n o) 0 8

/-- First multi-segment child: 8 bits. -/
def c5c1 : ChildReader := ⟨8, c5s1.readBitsAt⟩

/-- Second multi-segment child: 16 bits. -/
def c5c2 : ChildReader := ⟨16, c5s2.readBitsAt⟩

/-- Third multi-segment child: 8 bits. -/
def c5c3 : ChildReader := ⟨8, c5s3.readBitsAt⟩

/-- Multi-segment reader over segments of 8, 16 and 8 bits (total 32). -/
def c5m : MultiBitReader := NewMultiBitReader [c5c1, c5c2, c5c3]

/-- Segments of 8 and 16 bits for a total length of 24. -/
def c6rs : List ChildReader :=
  [⟨8, fun n o => Reader.readBitsAt [0x11] n o⟩,
   ⟨16, fun n o => Reader.readBitsAt [0x22, 0x33] n o⟩]

/-- Parent read-at over the three bytes `0xAB 0xCD 0xEF`. -/
def c8f : Int → Int → ReadResult := fun n o => Reader.readBitsAt [0xAB, 0xCD, 0xEF] n o

/-- Section record over window `[10, 20)` with cursor at its base. -/
def sectC8 : SectionBitReader := ⟨c8f, 10, 10, 20⟩

/-- Section record over window `[4, 12)` of a two-byte parent. -/
def sectC9 : SectionBitReader :=
  ⟨fun n o => Reader.readBitsAt [0xFF, 0x00] n o, 4, 4, 12⟩

/-- Multi-segment reader over two one-byte sequential readers. -/
def c9m : MultiBitReader :=
  NewMultiBitReader [⟨8, fun n o => Reader.readBitsAt [0x5A] n o⟩,
                     ⟨8, fun n o => Reader.readBitsAt [0xA5] n o⟩]

/-- An 8-bit section segment over the byte `0xAB`: it answers a negative
local offset with zero bits and end-of-stream. -/
def c10c : ChildReader :=
  ⟨8, (NewSectionBitReader (fun n o => Reader.readBitsAt [0xAB] n o) 0 8).readBitsAt⟩

/-! ### Helper lemmas -/

theorem assembleBits_n (buf : List Nat) (skip nBits : Nat) (err : Option BErr) :
    (assembleBits buf skip nBits err).n = nBits := by
  unfold assembleBits
  split <;> rfl

theorem assembleBits_err (buf : List Nat) (skip nBits : Nat) (err : Option BErr) :
    (assembleBits buf skip nBits err).err = err := by
  unfold assembleBits
  split <;> rfl

theorem prefixEnds_getLast_cons (cs : List ChildReader) (c : ChildReader) (acc : Int) :
    (prefixEnds (c :: cs) acc).getLast? =
      some (acc + ((c :: cs).map ChildReader.endPos).sum) := by
  induction cs generalizing c acc with
  | nil => simp [prefixEnds]
  | cons c' cs' ih =>
    show ((acc + c.endPos) :: prefixEnds (c' :: cs') (acc + c.endPos)).getLast? = _
    rw [show prefixEnds (c' :: cs') (acc + c.endPos) =
          (acc + c.endPos + c'.endPos) :: prefixEnds cs' (acc + c.endPos + c'.endPos) from rfl,
        List.getLast?_cons_cons,
        show (acc + c.endPos + c'.endPos) :: prefixEnds cs' (acc + c.endPos + c'.endPos) =
          prefixEnds (c' :: cs') (acc + c.endPos) from rfl,
        ih]
    simp
    ring

theorem totalEnd_new (rs : List ChildReader) :
    (NewMultiBitReader rs).totalEnd = (rs.map ChildReader.endPos).sum := by
  cases rs with
  | nil => rfl
  | cons c cs =>
    unfold MultiBitReader.totalEnd NewMultiBitReader
    rw [show (⟨0, c :: cs, prefixEnds (c :: cs) 0⟩ : MultiBitReader).readerEnds =
          prefixEnds (c :: cs) 0 from rfl,
        prefixEnds_getLast_cons]
    simp

/-- In-range reduction of `MultiBitReader.readBitsAt`: below the total end
the call is the located segment's read with end-of-stream suppression. -/
theorem multi_readBitsAt_eq (m : MultiBitReader) (r0 : ChildReader)
    (rest : List ChildReader) (hr : m.readers = r0 :: rest) (nBits bitOff : Int)
    (hlt : bitOff < m.totalEnd) :
    m.readBitsAt nBits bitOff =
      (let sp := findSeg r0 (m.readers.zip m.readerEnds) bitOff 0
       let res := sp.1.readAt nBits (bitOff - sp.2)
       if res.err = some .eof ∧ bitOff + res.n < m.totalEnd then ⟨res.n, res.out, none⟩
       else res) := by
  unfold MultiBitReader.readBitsAt
  rw [if_neg (not_le.mpr hlt), hr]

/-- At or past the total logical length, `MultiBitReader.readBitsAt`
answers end-of-stream with zero bits. -/
theorem multi_readBitsAt_eof (m : MultiBitReader) (nBits bitOff : Int)
    (h : m.totalEnd ≤ bitOff) : m.readBitsAt nBits bitOff = ⟨0, [], some .eof⟩ := by
  unfold MultiBitReader.readBitsAt
  rw [if_pos h]

/-- The locating loop returns the first pair whose cumulative end strictly
exceeds `off`, together with the preceding cumulative end. -/
theorem findSeg_first (d : ChildReader) (ps : List (ChildReader × Int)) (off prev : Int)
    (i : Nat) (hi : i < ps.length)
    (hbefore : ∀ j, j < i → (ps.getD j (d, 0)).2 ≤ off)
    (hit : off < (ps.getD i (d, 0)).2) :
    findSeg d ps off prev =
      ((ps.getD i (d, 0)).1, if i = 0 then prev else (ps.getD (i - 1) (d, 0)).2) := by
  induction ps generalizing i prev with
  | nil => simp at hi
  | cons p rest ih =>
    obtain ⟨c, e⟩ := p
    cases i with
    | zero =>
      simp only [List.getD_cons_zero] at hit ⊢
      unfold findSeg
      rw [if_pos hit]
      simp
    | succ j =>
      have he : e ≤ off := by
        have h0 := hbefore 0 (Nat.succ_pos j)
        simpa using h0
      unfold findSeg
      rw [if_neg (not_lt.mpr he)]
      have hi' : j < rest.length := by simpa using hi
      have hb' : ∀ k, k < j → (rest.getD k (d, 0)).2 ≤ off := by
        intro k hk
        have hk1 := hbefore (k + 1) (Nat.succ_lt_succ hk)
        simpa using hk1
      have hit' : off < (rest.getD j (d, 0)).2 := by simpa using hit
      rw [ih e j hi' hb' hit']
      cases j with
      | zero => simp
      | succ k => simp

/-- When the covering byte range is fully available the sequential read
fetches it whole and assembles `nBits` bits with no error. -/
theorem readBitsAt_in_bounds (data : List Nat) (nBits bitOffset : Int)
    (hn : 0 ≤ nBits) (hoff : 0 ≤ bitOffset)
    (hbound : BitsByteCount (bitOffset.toNat % 8 + nBits.toNat) ≤
      data.length - bitOffset.toNat / 8) :
    Reader.readBitsAt data nBits bitOffset =
      assembleBits
        ((data.drop (bitOffset.toNat / 8)).take
          (BitsByteCount (bitOffset.toNat % 8 + nBits.toNat)))
        (bitOffset.toNat % 8) nBits.toNat none := by
  unfold Reader.readBitsAt
  rw [if_neg (not_lt.mpr hn), if_neg (not_lt.mpr hoff)]
  simp only [Nat.min_eq_left hbound, lt_irrefl, if_false]

/-- When the covering byte range is not fully available the sequential
read is truncated to the available bytes and flags end-of-stream. -/
theorem readBitsAt_truncated (data : List Nat) (nBits bitOffset : Int)
    (hn : 0 ≤ nBits) (hoff : 0 ≤ bitOffset)
    (htrunc : data.length - bitOffset.toNat / 8 <
      BitsByteCount (bitOffset.toNat % 8 + nBits.toNat)) :
    Reader.readBitsAt data nBits bitOffset =
      (if data.length - bitOffset.toNat / 8 = 0 then ⟨0, [], some .eof⟩
       else assembleBits
        ((data.drop (bitOffset.toNat / 8)).take (data.length - bitOffset.toNat / 8))
        (bitOffset.toNat % 8) ((data.length - bitOffset.toNat / 8) * 8) (some .eof)) := by
  unfold Reader.readBitsAt
  rw [if_neg (not_lt.mpr hn), if_neg (not_lt.mpr hoff)]
  simp only [Nat.min_eq_right (le_of_lt htrunc), if_pos htrunc]

theorem assembleBits_out_full (buf : List Nat) (skip nBits : Nat) (err : Option BErr)
    (hslow : ¬(skip = 0 ∧ nBits % 8 = 0)) (i : Nat) (hi : i < nBits / 8) :
    (assembleBits buf skip nBits err).out.getD i 0 = Read64 buf (skip + i * 8) 8 := by
  unfold assembleBits
  rw [if_neg hslow]
  simp only [List.getD_eq_getElem?_getD, List.getElem?_append, List.length_map,
    List.length_range, if_pos hi, List.getElem?_map, List.getElem?_range hi]
  rfl

theorem assembleBits_out_rest (buf : List Nat) (skip nBits : Nat) (err : Option BErr)
    (hrest : nBits % 8 ≠ 0) :
    (assembleBits buf skip nBits err).out.getD (nBits / 8) 0 =
      Read64 buf (skip + nBits / 8 * 8) (nBits % 8) * 2 ^ (8 - nBits % 8) := by
  unfold assembleBits
  rw [if_neg (by tauto)]
  simp only [List.getD_eq_getElem?_getD, if_neg hrest]
  rw [List.getElem?_append_right (by simp)]
  simp

/-! ### The claims -/

/-- C10: For a Multi-Segment Reader with at least one segment whose first
segment reports end-of-stream with zero bits for the negative local offset
(as a Section Reader does), `readBitsAt` at a negative global bit offset
returns zero bits with a nil error: the negative offset passes the
end-of-stream check, resolves to the first segment, and the segment's
end-of-stream signal is suppressed because `offset + 0` is below the total
length, so the caller observes neither an error nor an end-of-stream
signal. -/
theorem multi_negative_offset_nil_error (r0 : ChildReader) (rest : List ChildReader)
    (nBits bitOff : Int) (hneg : bitOff < 0) (hend0 : 0 ≤ r0.endPos)
    (htot : 0 ≤ (NewMultiBitReader (r0 :: rest)).totalEnd)
    (hchild : r0.readAt nBits bitOff = ⟨0, [], some .eof⟩) :
    (NewMultiBitReader (r0 :: rest)).readBitsAt nBits bitOff = ⟨0, [], none⟩ := by
  have hlt : bitOff < (NewMultiBitReader (r0 :: rest)).totalEnd :=
    lt_of_lt_of_le hneg htot
  rw [multi_readBitsAt_eq _ r0 rest rfl nBits bitOff hlt]
  have hzip : (NewMultiBitReader (r0 :: rest)).readers.zip
      (NewMultiBitReader (r0 :: rest)).readerEnds =
      (r0, 0 + r0.endPos) :: rest.zip (prefixEnds rest (0 + r0.endPos)) := rfl
  rw [hzip]
  unfold findSeg
  rw [if_pos (by omega : bitOff < 0 + r0.endPos)]
  simp only [sub_zero, hchild]
  rw [if_pos ⟨trivial, by simpa using hlt⟩]

/-- C3: For the Multi-Segment Reader's `readBitsAt`, at any offset strictly
below the total logical length at which the delegated per-segment read
returns end-of-stream with partial bit count `rBits`, if `offset + rBits`
is still strictly below the total length then the end-of-stream signal is
suppressed and the call returns `rBits` (and exactly the first segment's
bytes — one call never stitches bits from the following segment) with
success. -/
theorem multi_segment_eof_suppression (r0 seg : ChildReader) (rest : List ChildReader)
    (nBits bitOff prev rBits : Int) (out : List Nat)
    (hlt : bitOff < (NewMultiBitReader (r0 :: rest)).totalEnd)
    (hfind : findSeg r0 ((NewMultiBitReader (r0 :: rest)).readers.zip
        (NewMultiBitReader (r0 :: rest)).readerEnds) bitOff 0 = (seg, prev))
    (hread : seg.readAt nBits (bitOff - prev) = ⟨rBits, out, some .eof⟩)
    (hsup : bitOff + rBits < (NewMultiBitReader (r0 :: rest)).totalEnd) :
    (NewMultiBitReader (r0 :: rest)).readBitsAt nBits bitOff = ⟨rBits, out, none⟩ := by
  rw [multi_readBitsAt_eq _ r0 rest rfl nBits bitOff hlt]
  simp only [hfind, hread]
  rw [if_pos ⟨trivial, hsup⟩]

/-- C1: On the sequential reader's unaligned slow path, for every in-bounds
request of `nBits` at `bitOffset` with `skip = bitOffset mod 8`, output
byte `i` (for `i < nBits/8`) equals the 8 bits of the fetched bytes
starting at bit `skip + i*8`, and when `nBits mod 8 = r > 0` the final
output byte holds the remaining `r` bits shifted left by `8-r` with the
low-order bits zero; in particular over the source bytes `0xFF 0x00`,
reading 4 bits at offset 4 stores `0xF0`, and reading 12 bits at offset 4
stores `0xF0, 0x00`. -/
theorem reader_slow_path_assembly :
    (∀ (data : List Nat) (nBits bitOffset : Int), 0 ≤ nBits → 0 ≤ bitOffset →
      BitsByteCount (bitOffset.toNat % 8 + nBits.toNat) ≤
        data.length - bitOffset.toNat / 8 →
      ¬(bitOffset.toNat % 8 = 0 ∧ nBits.toNat % 8 = 0) →
      (Reader.readBitsAt data nBits bitOffset).n = nBits ∧
      (Reader.readBitsAt data nBits bitOffset).err = none ∧
      (∀ i, i < nBits.toNat / 8 →
        (Reader.readBitsAt data nBits bitOffset).out.getD i 0 =
          Read64 ((data.drop (bitOffset.toNat / 8)).take
              (BitsByteCount (bitOffset.toNat % 8 + nBits.toNat)))
            (bitOffset.toNat % 8 + i * 8) 8) ∧
      (nBits.toNat % 8 ≠ 0 →
        (Reader.readBitsAt data nBits bitOffset).out.getD (nBits.toNat / 8) 0 =
          Read64 ((data.drop (bitOffset.toNat / 8)).take
              (BitsByteCount (bitOffset.toNat % 8 + nBits.toNat)))
            (bitOffset.toNat % 8 + nBits.toNat / 8 * 8) (nBits.toNat % 8) *
            2 ^ (8 - nBits.toNat % 8))) ∧
    Reader.readBitsAt [0xFF, 0x00] 4 4 = ⟨4, [0xF0], none⟩ ∧
    Reader.readBitsAt [0xFF, 0x00] 12 4 = ⟨12, [0xF0, 0x00], none⟩ := by
  refine ⟨?_, by decide, by decide⟩
  intro data nBits bitOffset hn hoff hbound hslow
  rw [readBitsAt_in_bounds data nBits bitOffset hn hoff hbound]
  refine ⟨?_, assembleBits_err _ _ _ _, ?_, ?_⟩
  · rw [assembleBits_n]
    exact Int.toNat_of_nonneg hn
  · intro i hi
    exact assembleBits_out_full _ _ _ _ hslow i hi
  · intro hrest
    exact assembleBits_out_rest _ _ _ _ hrest

/-- C1 witness: the general part applied to reading 12 bits at offset 4 of
the two-byte source `0xFF 0x00`. -/
theorem reader_slow_path_assembly_witness :
    ¬((4 : Int).toNat % 8 = 0 ∧ (12 : Int).toNat % 8 = 0) ∧
    (Reader.readBitsAt [0xFF, 0x00] 12 4).n = 12 ∧
    (Reader.readBitsAt [0xFF, 0x00] 12 4).err = none := by
  refine ⟨by decide, ?_, ?_⟩
  · exact (reader_slow_path_assembly.1 [0xFF, 0x00] 12 4
      (by decide) (by decide) (by decide) (by decide)).1
  · exact (reader_slow_path_assembly.1 [0xFF, 0x00] 12 4
      (by decide) (by decide) (by decide) (by decide)).2.1

/-- C2 counterexample: over the one-byte source `0xFF`, reading 12 bits at
offset 4 is truncated, but the returned bit count is `readBytes*8 = 8`
(counted from the start of the covering byte range, including the 4
skipped leading bits), not the 4 bits actually available at offset 4
(`8*len - 4 = 4`). -/
theorem reader_truncation_count_counterexample :
    Reader.readBitsAt [0xFF] 12 4 = ⟨8, [0xF0], some .eof⟩ ∧
    (Reader.readBitsAt [0xFF] 12 4).n ≠ 8 * ([0xFF] : List Nat).length - 4 := by
  decide

/-- C2 amended: when the underlying byte source holds fewer bytes than the
byte range covering `[bitOffset, bitOffset+nBits)`, the call returns
end-of-stream together with `8 *` (the number of whole bytes actually
fetched from the covering range) — a count that includes the skipped
leading sub-byte bits rather than only the bits remaining at `bitOffset` —
and never an error that discards the partial result. -/
theorem reader_truncation_partial_bits (data : List Nat) (nBits bitOffset : Int)
    (hn : 0 ≤ nBits) (hoff : 0 ≤ bitOffset)
    (htrunc : data.length - bitOffset.toNat / 8 <
      BitsByteCount (bitOffset.toNat % 8 + nBits.toNat)) :
    (Reader.readBitsAt data nBits bitOffset).err = some BErr.eof ∧
    (Reader.readBitsAt data nBits bitOffset).n =
      ((data.length - bitOffset.toNat / 8 : Nat) : Int) * 8 := by
  rw [readBitsAt_truncated data nBits bitOffset hn hoff htrunc]
  split
  · rename_i h0
    rw [h0]
    exact ⟨rfl, by norm_num⟩
  · refine ⟨assembleBits_err _ _ _ _, ?_⟩
    rw [assembleBits_n]
    push_cast
    ring

/-- C2 amended witness: the truncated read of 12 bits at offset 4 of the
one-byte source `0xFF`. -/
theorem reader_truncation_partial_bits_witness :
    (Reader.readBitsAt [0xFF] 12 4).err = some BErr.eof ∧
    (Reader.readBitsAt [0xFF] 12 4).n =
      ((([0xFF] : List Nat).length - (4 : Int).toNat / 8 : Nat) : Int) * 8 :=
  reader_truncation_partial_bits [0xFF] 12 4 (by decide) (by decide) (by decide)

/-- C4 counterexample: the section over `[10, 20)` bits of a 24-bit parent,
asked for 20 bits at local offset 5, clamps to the 5 remaining bits and
returns them with a nil error — NOT with the end-of-stream signal the
claim requires for a read requesting more bits than remain. -/
theorem section_clamped_read_no_eof_counterexample :
    sectC4.readBitsAt 20 5 = ⟨5, [0xF0], none⟩ ∧
    (sectC4.readBitsAt 20 5).err ≠ some BErr.eof := by
  decide

/-- C4 amended: for every Section Reader over a window of base `b` and
length `L`, `readBitsAt` at local offset `o ∈ [0, L)` delegates to the
parent at offset `b + o` with the requested bit count clamped to at most
`L - o`, so the delegated range never covers parent bit offsets below `b`
or at/above `b + L` even when the parent holds data there, and an
out-of-window local offset answers end-of-stream without consulting the
parent; a read requesting more bits than remain before the section's end
returns only the remaining bits, with an end-of-stream signal only if the
parent's clamped read itself reports one. -/
theorem section_clamps_and_stays_in_window :
    (∀ (f : Int → Int → ReadResult) (base len nBits o : Int), 0 ≤ o → o < len →
      (NewSectionBitReader f base len).readBitsAt nBits o =
        f (min nBits (len - o)) (base + o) ∧
      base ≤ base + o ∧ base + o + min nBits (len - o) ≤ base + len) ∧
    (∀ (f : Int → Int → ReadResult) (base len nBits o : Int), o < 0 ∨ len ≤ o →
      (NewSectionBitReader f base len).readBitsAt nBits o = ⟨0, [], some BErr.eof⟩) := by
  constructor
  · intro f base len nBits o h0 hlt
    unfold NewSectionBitReader SectionBitReader.readBitsAt
    simp only
    rw [if_neg (by rw [add_sub_cancel_left]; omega)]
    have hmax : base + len - (o + base) = len - o := by ring
    rw [hmax, add_comm o base]
    refine ⟨?_, by omega, by linarith [min_le_right nBits (len - o)]⟩
    split
    · rename_i hgt
      rw [min_eq_right (le_of_lt hgt)]
    · rename_i hle
      rw [min_eq_left (not_lt.mp hle)]
  · intro f base len nBits o h
    unfold NewSectionBitReader SectionBitReader.readBitsAt
    simp only
    rw [if_pos (by rw [add_sub_cancel_left]; omega)]

/-- C4 amended witness: the clamped read of 20 bits at local offset 5 of
the `[10, 20)` section. -/
theorem section_clamps_and_stays_in_window_witness :
    (NewSectionBitReader c4f 10 10).readBitsAt 20 5 =
      c4f (min 20 (10 - 5)) (10 + 5) ∧
    (10 : Int) ≤ 10 + 5 ∧ (10 : Int) + 5 + min 20 (10 - 5) ≤ 10 + 10 :=
  section_clamps_and_stays_in_window.1 c4f 10 10 20 5 (by decide) (by decide)

/-- C7 counterexample: a Section Reader of length 8 asked for `-1` bits at
local offset `-1` fails with end-of-stream, not with the NegativeLength
error the claim requires for every reader type at every offset. -/
theorem negative_nbits_counterexample :
    sectC7.readBitsAt (-1) (-1) = ⟨0, [], some BErr.eof⟩ ∧
    (sectC7.readBitsAt (-1) (-1)).err ≠ some BErr.negativeNBits := by
  decide

/-- C7 amended: the Sequential reader always fails with NegativeLength for
a negative requested bit count; the Section and Multi-Segment readers
check the offset first: with an in-bounds offset the negative count
propagates to a NegativeLength failure (delegated unclamped to the parent
or located segment), but an out-of-window local offset (or an offset
at/past the Multi-Segment reader's total length) fails with end-of-stream
instead. -/
theorem negative_nbits_error_paths :
    (∀ (data : List Nat) (nBits bitOffset : Int), nBits < 0 →
      Reader.readBitsAt data nBits bitOffset = ⟨0, [], some BErr.negativeNBits⟩) ∧
    (∀ (f : Int → Int → ReadResult) (base len nBits o : Int), nBits < 0 →
      0 ≤ o → o < len → f nBits (base + o) = ⟨0, [], some BErr.negativeNBits⟩ →
      (NewSectionBitReader f base len).readBitsAt nBits o =
        ⟨0, [], some BErr.negativeNBits⟩) ∧
    (∀ (f : Int → Int → ReadResult) (base len nBits o : Int), o < 0 ∨ len ≤ o →
      (NewSectionBitReader f base len).readBitsAt nBits o = ⟨0, [], some BErr.eof⟩) ∧
    (∀ (r0 seg : ChildReader) (rest : List ChildReader) (nBits bitOff prev : Int),
      bitOff < (NewMultiBitReader (r0 :: rest)).totalEnd →
      findSeg r0 ((NewMultiBitReader (r0 :: rest)).readers.zip
        (NewMultiBitReader (r0 :: rest)).readerEnds) bitOff 0 = (seg, prev) →
      seg.readAt nBits (bitOff - prev) = ⟨0, [], some BErr.negativeNBits⟩ →
      (NewMultiBitReader (r0 :: rest)).readBitsAt nBits bitOff =
        ⟨0, [], some BErr.negativeNBits⟩) ∧
    (∀ (rs : List ChildReader) (nBits bitOff : Int),
      (NewMultiBitReader rs).totalEnd ≤ bitOff →
      (NewMultiBitReader rs).readBitsAt nBits bitOff = ⟨0, [], some BErr.eof⟩) := by
  refine ⟨?_, ?_, ?_, ?_, ?_⟩
  · intro data nBits bitOffset hneg
    unfold Reader.readBitsAt
    rw [if_pos hneg]
  · intro f base len nBits o hneg h0 hlt hprop
    unfold NewSectionBitReader SectionBitReader.readBitsAt
    simp only
    rw [if_neg (by rw [add_sub_cancel_left]; omega),
      if_neg (by omega : ¬nBits > base + len - (o + base)), add_comm o base, hprop]
  · intro f base len nBits o h
    unfold NewSectionBitReader SectionBitReader.readBitsAt
    simp only
    rw [if_pos (by rw [add_sub_cancel_left]; omega)]
  · intro r0 seg rest nBits bitOff prev hlt hfind hread
    rw [multi_readBitsAt_eq _ r0 rest rfl nBits bitOff hlt]
    simp only [hfind, hread]
    rw [if_neg (by simp)]
  · intro rs nBits bitOff hge
    unfold MultiBitReader.readBitsAt
    rw [if_pos hge]

/-- C7 amended witness: a negative request on a sequential reader. -/
theorem negative_nbits_error_paths_witness :
    Reader.readBitsAt [0xAB] (-3) 0 = ⟨0, [], some BErr.negativeNBits⟩ :=
  negative_nbits_error_paths.1 [0xAB] (-3) 0 (by decide)

/-- C5: For a Multi-Segment Reader with at least one segment and an offset
in `[0, totalLength)`, `readBitsAt` locates the first segment whose
cumulative end strictly exceeds the offset (a boundary offset belongs to
the following segment) and delegates the read to that segment at local
offset `offset - previous cumulative end`; with segments of 8, 16 and 8
bits (prefix sums `[8, 24, 32]`), offset 8 resolves to the second segment
with previous end 8 (local offset 0, yielding that segment's first byte)
and offset 23 resolves to the second segment with previous end 8 (local
offset 15) with only 1 bit available in that call. -/
theorem multi_segment_addressing :
    (∀ (r0 : ChildReader) (rest : List ChildReader) (nBits bitOff : Int) (i : Nat),
      i < ((NewMultiBitReader (r0 :: rest)).readers.zip
          (NewMultiBitReader (r0 :: rest)).readerEnds).length →
      (∀ j, j < i →
        (((NewMultiBitReader (r0 :: rest)).readers.zip
          (NewMultiBitReader (r0 :: rest)).readerEnds).getD j (r0, 0)).2 ≤ bitOff) →
      bitOff < (((NewMultiBitReader (r0 :: rest)).readers.zip
          (NewMultiBitReader (r0 :: rest)).readerEnds).getD i (r0, 0)).2 →
      bitOff < (NewMultiBitReader (r0 :: rest)).totalEnd →
      (NewMultiBitReader (r0 :: rest)).readBitsAt nBits bitOff =
        (let ps := (NewMultiBitReader (r0 :: rest)).readers.zip
            (NewMultiBitReader (r0 :: rest)).readerEnds
         let seg := (ps.getD i (r0, 0)).1
         let prev : Int := if i = 0 then 0 else (ps.getD (i - 1) (r0, 0)).2
         let res := seg.readAt nBits (bitOff - prev)
         if res.err = some BErr.eof ∧
            bitOff + res.n < (NewMultiBitReader (r0 :: rest)).totalEnd then
           ⟨res.n, res.out, none⟩
         else res)) ∧
    c5m.readerEnds = [8, 24, 32] ∧
    findSeg c5c1 (c5m.readers.zip c5m.readerEnds) 8 0 = (c5c2, 8) ∧
    findSeg c5c1 (c5m.readers.zip c5m.readerEnds) 23 0 = (c5c2, 8) ∧
    c5m.readBitsAt 8 8 = ⟨8, [0xBB], none⟩ ∧
    c5m.readBitsAt 8 23 = ⟨1, [0x00], none⟩ := by
  refine ⟨?_, by decide, rfl, rfl, by decide, by decide⟩
  intro r0 rest nBits bitOff i hi hbefore hit hlt
  rw [multi_readBitsAt_eq _ r0 rest rfl nBits bitOff hlt,
      findSeg_first r0 _ bitOff 0 i hi hbefore hit]

/-- C5 witness: the general part applied to offset 23 of the 8/16/8
multi-segment reader, resolving to the second segment at local offset 15
with a single bit read. -/
theorem multi_segment_addressing_witness :
    (NewMultiBitReader (c5c1 :: [c5c2, c5c3])).readBitsAt 8 23 = ⟨1, [0x00], none⟩ := by
  have h := multi_segment_addressing.1 c5c1 [c5c2, c5c3] 8 23 1 (by decide)
    (by
      intro j hj
      have hj0 : j = 0 := by omega
      subst hj0
      decide)
    (by decide) (by decide)
  rw [h]
  decide

/-- C6: For every Multi-Segment Reader, the total logical length equals
the sum of the segments' end positions computed at construction;
`seekBits` fails with an offset error for every target position outside
`[0, totalLength]`, while seeking to exactly `totalLength` succeeds and
positions the cursor at the end, after which a stateful read returns zero
bits with an end-of-stream signal. -/
theorem multi_total_and_seek_bounds :
    (∀ rs : List ChildReader,
      (NewMultiBitReader rs).totalEnd = (rs.map ChildReader.endPos).sum) ∧
    (∀ (rs : List ChildReader) (p : Int),
      (p < 0 ∨ p > (NewMultiBitReader rs).totalEnd →
        (NewMultiBitReader rs).seekBits p .seekStart =
          ((0, some BErr.offset), NewMultiBitReader rs)) ∧
      (0 ≤ p → p ≤ (NewMultiBitReader rs).totalEnd →
        (NewMultiBitReader rs).seekBits p .seekStart =
          ((p, none), { NewMultiBitReader rs with pos := p }))) ∧
    (∀ (rs : List ChildReader) (nBits : Int), 0 ≤ (NewMultiBitReader rs).totalEnd →
      ((NewMultiBitReader rs).seekBits (NewMultiBitReader rs).totalEnd .seekStart).2.pos =
        (NewMultiBitReader rs).totalEnd ∧
      (((NewMultiBitReader rs).seekBits
          (NewMultiBitReader rs).totalEnd .seekStart).2.readBits nBits).1 =
        ⟨0, [], some BErr.eof⟩) := by
  refine ⟨totalEnd_new, ?_, ?_⟩
  · intro rs p
    constructor
    · intro h
      unfold MultiBitReader.seekBits
      simp only
      rw [if_pos h]
    · intro h0 hle
      unfold MultiBitReader.seekBits
      simp only
      rw [if_neg (by rw [not_or]; exact ⟨not_lt.mpr h0, not_lt.mpr hle⟩)]
  · intro rs nBits htot
    unfold MultiBitReader.seekBits
    simp only
    rw [if_neg (by rw [not_or]; exact ⟨not_lt.mpr htot, lt_irrefl _⟩)]
    refine ⟨rfl, ?_⟩
    unfold MultiBitReader.readBits
    simp only
    rw [multi_readBitsAt_eof _ nBits _ (le_of_eq (by rfl))]

/-- C6 witness: segments of 8 and 16 bits, total 24; seeking to 24
succeeds and the following stateful read reports end-of-stream with zero
bits. -/
theorem multi_total_and_seek_bounds_witness :
    (NewMultiBitReader c6rs).totalEnd = (c6rs.map ChildReader.endPos).sum ∧
    (0 : Int) ≤ (NewMultiBitReader c6rs).totalEnd ∧
    ((NewMultiBitReader c6rs).seekBits (NewMultiBitReader c6rs).totalEnd .seekStart).2.pos =
      (NewMultiBitReader c6rs).totalEnd ∧
    (((NewMultiBitReader c6rs).seekBits
        (NewMultiBitReader c6rs).totalEnd .seekStart).2.readBits 4).1 =
      ⟨0, [], some BErr.eof⟩ := by
  refine ⟨multi_total_and_seek_bounds.1 c6rs, by decide, ?_, ?_⟩
  · exact (multi_total_and_seek_bounds.2.2 c6rs 4 (by decide)).1
  · exact (multi_total_and_seek_bounds.2.2 c6rs 4 (by decide)).2

/-- C8: For every Section Reader, `seekBits` fails with an offset error
exactly when the target (after whence translation against start, cursor
or end) falls before the section's start, and succeeds for every target
at or past the start including positions at or beyond the section's
length; `readBitsAt` at a local offset that is negative or at/above the
section's length returns an end-of-stream signal. -/
theorem section_seek_and_out_of_window_reads :
    (∀ (r : SectionBitReader) (bitOff : Int) (w : Whence),
      (sectionSeekTarget r bitOff w < r.bitBase →
        r.seekBits bitOff w = ((0, some BErr.offset), r)) ∧
      (r.bitBase ≤ sectionSeekTarget r bitOff w →
        r.seekBits bitOff w = ((sectionSeekTarget r bitOff w - r.bitBase, none),
          { r with bitOff := sectionSeekTarget r bitOff w }))) ∧
    (∀ (r : SectionBitReader) (nBits o : Int), o < 0 ∨ r.bitLimit - r.bitBase ≤ o →
      r.readBitsAt nBits o = ⟨0, [], some BErr.eof⟩) := by
  constructor
  · intro r bitOff w
    constructor
    · intro h
      cases w <;>
        · unfold SectionBitReader.seekBits
          simp only
          rw [if_pos (by exact h)]
    · intro h
      cases w <;>
        · unfold SectionBitReader.seekBits
          simp only
          rw [if_neg (not_lt.mpr (by exact h))]
          rfl
  · intro r nBits o h
    unfold SectionBitReader.readBitsAt
    rw [if_pos (show o < 0 ∨ o ≥ r.bitLimit - r.bitBase from h)]

/-- C8 witness: on the `[10, 20)` section, seeking to local `-1` from the
start fails with the offset error, seeking to local 15 (past the length)
succeeds, and reading at local offset 12 (at/above the length 10) reports
end-of-stream. -/
theorem section_seek_and_out_of_window_reads_witness :
    sectC8.seekBits (-1) .seekStart = ((0, some BErr.offset), sectC8) ∧
    sectC8.seekBits 15 .seekStart =
      ((sectionSeekTarget sectC8 15 .seekStart - sectC8.bitBase, none),
       { sectC8 with bitOff := sectionSeekTarget sectC8 15 .seekStart }) ∧
    sectC8.readBitsAt 4 12 = ⟨0, [], some BErr.eof⟩ := by
  refine ⟨?_, ?_, ?_⟩
  · exact (section_seek_and_out_of_window_reads.1 sectC8 (-1) .seekStart).1 (by decide)
  · exact (section_seek_and_out_of_window_reads.1 sectC8 15 .seekStart).2 (by decide)
  · exact section_seek_and_out_of_window_reads.2 sectC8 4 12 (by decide)

/-- C9: For every reader type (Sequential, Section, Multi-Segment) and
every in-bounds offset, the random-access path `readBitsAt(nBits, off)`
and the stateful path `seekBits(off, start)` followed by `readBits(nBits)`
produce the identical result (bit count, buffer bytes and error), with
the stateful read advancing the cursor by the bits actually read. -/
theorem random_access_matches_stateful :
    (∀ (r : Reader) (nBits off : Int), 0 ≤ off →
      ((r.seekBits off .seekStart).2.readBits nBits).1 =
        Reader.readBitsAt r.data nBits off ∧
      ((r.seekBits off .seekStart).2.readBits nBits).2.bitPos =
        off + (Reader.readBitsAt r.data nBits off).n) ∧
    (∀ (r : SectionBitReader) (nBits off : Int), 0 ≤ off →
      ((r.seekBits off .seekStart).2.readBits nBits).1 = r.readBitsAt nBits off ∧
      ((r.seekBits off .seekStart).2.readBits nBits).2.bitOff =
        off + r.bitBase + (r.readBitsAt nBits off).n) ∧
    (∀ (m : MultiBitReader) (nBits off : Int), 0 ≤ off → off ≤ m.totalEnd →
      ((m.seekBits off .seekStart).2.readBits nBits).1 = m.readBitsAt nBits off ∧
      ((m.seekBits off .seekStart).2.readBits nBits).2.pos =
        off + (m.readBitsAt nBits off).n) := by
  refine ⟨?_, ?_, ?_⟩
  · intro r nBits off h0
    have ht : ¬off.tdiv 8 < 0 := not_lt.mpr (Int.tdiv_nonneg h0 (by norm_num))
    have hid : off.tdiv 8 * 8 + off.tmod 8 = off := by
      rw [mul_comm]
      exact Int.tdiv_add_tmod off 8
    unfold Reader.seekBits
    simp only
    rw [if_neg ht]
    unfold Reader.readBits
    simp only
    rw [hid]
    exact ⟨rfl, rfl⟩
  · intro r nBits off h0
    unfold SectionBitReader.seekBits
    simp only
    rw [if_neg (by omega : ¬off + r.bitBase < r.bitBase)]
    unfold SectionBitReader.readBits
    simp only [add_sub_cancel_right]
    exact ⟨rfl, rfl⟩
  · intro m nBits off h0 hle
    unfold MultiBitReader.seekBits
    simp only
    rw [if_neg (by rw [not_or]; exact ⟨not_lt.mpr h0, not_lt.mpr hle⟩)]
    unfold MultiBitReader.readBits
    simp only
    exact ⟨rfl, rfl⟩

/-- C9 witness: the agreement applied to a sequential reader over
`0xFF 0x00` at offset 4, a `[4, 12)` section at local offset 3, and an
8+8-bit multi-segment reader at offset 8. -/
theorem random_access_matches_stateful_witness :
    (((Reader.mk [0xFF, 0x00] 0).seekBits 4 .seekStart).2.readBits 7).1 =
      Reader.readBitsAt [0xFF, 0x00] 7 4 ∧
    ((sectC9.seekBits 3 .seekStart).2.readBits 5).1 = sectC9.readBitsAt 5 3 ∧
    ((c9m.seekBits 8 .seekStart).2.readBits 8).1 = c9m.readBitsAt 8 8 := by
  refine ⟨?_, ?_, ?_⟩
  · exact (random_access_matches_stateful.1 ⟨[0xFF, 0x00], 0⟩ 7 4 (by decide)).1
  · exact (random_access_matches_stateful.2.1 sectC9 5 3 (by decide)).1
  · exact (random_access_matches_stateful.2.2 c9m 8 8 (by decide) (by decide)).1

/-- C3 witness: two one-byte segments; a 16-bit read at offset 0 is
answered by the first segment alone (8 bits, end-of-stream suppressed). -/
theorem multi_segment_eof_suppression_witness :
    (NewMultiBitReader (c3c1 :: [c3c2])).readBitsAt 16 0 = ⟨8, [0xAB], none⟩ :=
  multi_segment_eof_suppression c3c1 c3c1 [c3c2] 16 0 0 8 [0xAB]
    (by decide) rfl (by decide) (by decide)

/-- C10 witness: one 8-bit section segment; a read at offset `-5` returns
zero bits and a nil error. -/
theorem multi_negative_offset_nil_error_witness :
    (NewMultiBitReader (c10c :: [])).readBitsAt 4 (-5) = ⟨0, [], none⟩ :=
  multi_negative_offset_nil_error c10c [] 4 (-5) (by decide) (by decide) (by decide)
    (by decide)

end Bitio
